import Mathlib

/-!
Shallow embedding of the AMPD peak-detection program (`ampd_obsolete.c`).

Modelling conventions:
* C `double`/`float` values are modelled as `ℚ` wherever the code performs
  only field operations and comparisons (all concrete inputs used below are
  small dyadic rationals, on which IEEE double/float arithmetic is exact),
  and as `ℝ` for `linear_fit`, whose code calls `sqrt`.
* C `int` is modelled as `ℤ` (or `ℕ` for loop counters that stay
  non-negative); the C cast `(int)x` of a non-negative double truncates
  toward zero, modelled by `truncQ`.
* Out-of-bounds array reads (which the C code does perform, see `find_peaks`
  and `calc_lms`) are undefined behaviour in C; they are modelled by an
  explicit `junk` parameter holding the value the read happens to return.
* `rand()/RAND_MAX` draws: `calc_lms` consumes exactly one draw per matrix
  cell `(k,i)`, in a fixed deterministic order, so the random source is
  modelled as a function `u : ℕ → ℕ → ℚ` giving the draw for cell `(k,i)`;
  draws of `U(0,1)` satisfy `0 ≤ u k i ≤ 1`.
* The compile-time constants `ALPHA`, `RAND_FACTOR`, `TOLERANCE`,
  `IND_THRESH`, `DATA_BUF_DEF`, `TIMESTEP_DEFAULT` come from the header
  `ampd.h`, which is not part of the sources; per the specification's
  configuration surface (§6) they are passed as explicit parameters
  (`α`, `rf`, `tol`, `thr`, `data_buf`, `ts`).
-/

namespace Ampd

/-- C cast `(int)q` of a double: truncation toward zero. -/
def truncQ (q : ℚ) : ℤ := if 0 ≤ q then ⌊q⌋ else ⌈q⌉

/-- Read `data[j]` for a possibly out-of-range signed index `j`; an
out-of-range read is undefined behaviour in C and yields the unspecified
value `junk` in the model. -/
def dAt (data : List ℚ) (junk : ℚ) (j : ℤ) : ℚ :=
  if 0 ≤ j then data.getD j.toNat junk else junk

/-- The `struct Mtx` of the source: a rows × cols matrix of floats. -/
structure Mtx where
  rows : ℕ
  cols : ℕ
  entries : List (List ℚ)

/-- Read `m->data[k][i]`.  All reads performed by the modelled code are
in range, so the default `0` is never exercised. -/
def mtxAt (m : Mtx) (k i : ℕ) : ℚ := (m.entries.getD k []).getD i 0

/-- One cell of the local-maxima scalogram, from the body of the double
loop in `calc_lms` (lines 706–722): edge guards `i < k` and
`i > n - k + 1` assign the noise value `alpha + RAND_FACTOR·rand()`;
otherwise `data[i-1]` is compared with `data[i-k-1]` and `data[i+k-1]`
(signed positions, read through `dAt`), a strict double maximum being
flagged `0.0`. -/
def lmsCell (data : List ℚ) (junk α rf : ℚ) (u : ℕ → ℕ → ℚ) (k i : ℕ) : ℚ :=
  if (i : ℤ) < (k : ℤ) then α + rf * u k i
  else if (i : ℤ) > (data.length : ℤ) - (k : ℤ) + 1 then α + rf * u k i
  else if dAt data junk ((i : ℤ) - 1) > dAt data junk ((i : ℤ) - (k : ℤ) - 1) ∧
          dAt data junk ((i : ℤ) - 1) > dAt data junk ((i : ℤ) + (k : ℤ) - 1) then 0
  else α + rf * u k i

/-- `calc_lms` together with the allocation `malloc_mtx(l, n)` in `main`:
an `l × n` matrix with `l = (int)ceil(n/2)-1` (`n/2` is C integer
division, so `l = n/2 - 1`) and `n` the window length. -/
def calc_lms (data : List ℚ) (junk α rf : ℚ) (u : ℕ → ℕ → ℚ) : Mtx :=
  { rows := data.length / 2 - 1
    cols := data.length
    entries := (List.range (data.length / 2 - 1)).map fun k =>
      (List.range data.length).map fun i => lmsCell data junk α rf u k i }

/-- `row_sum_lms`: `gamma[k] = Σ_i lms[k][i]`. -/
def row_sum_lms (lms : Mtx) : List ℚ :=
  (List.range lms.rows).map fun k =>
    ((List.range lms.cols).map fun i => mtxAt lms k i).sum

/-- Loop of `argmin_minind` (lines 555–568), with an explicit fuel that
equals the number of remaining iterations: `out`/`m` are the running
argmin and minimum. -/
def argminLoop (data : List ℚ) (junk : ℚ) : ℕ → ℕ → ℕ → ℚ → ℕ
  | 0, _, out, _ => out
  | fuel + 1, i, out, m =>
    if i < data.length then
      if data.getD i junk < m then argminLoop data junk fuel (i + 1) i (data.getD i junk)
      else argminLoop data junk fuel (i + 1) out m
    else out

/-- `argmin_minind(data, n)`: first index of the global minimum; the
initialisation `min = data[0]` reads `junk` when the vector is empty. -/
def argmin_minind (data : List ℚ) (junk : ℚ) : ℕ :=
  argminLoop data junk data.length 0 0 (data.getD 0 junk)

/-- `col_stddev_lms(lms, sigma, lambda)`: for each column `i` of the
reduced scalogram, `sum_m_i = Σ_{k<λ} lms[k][i]/λ`, then
`sigma[i] = Σ_{k<λ} |lms[k][i] - sum_m_i| / (λ-1)`.  (For `λ ≤ 1` the C
code divides by `0.0` or `-1.0`; the claims below only exercise `λ ≥ 2`.) -/
def col_stddev_lms (lms : Mtx) (lambda : ℕ) : List ℚ :=
  (List.range lms.cols).map fun i =>
    let m := ((List.range lambda).map fun k => mtxAt lms k i / (lambda : ℚ)).sum
    ((List.range lambda).map fun k => |mtxAt lms k i - m| / ((lambda : ℚ) - 1)).sum

/-- The source's `#define HARDTRESHOLD_PEAKS 1`. -/
def HARDTRESHOLD_PEAKS : ℕ := 1

/-- The value the code reads as `peaks[j-1]`: the last accepted peak when
one exists, and for `j = 0` the word in memory just before the `peaks`
array (an out-of-bounds read), modelled by `junk`. -/
def prevRead (junk : ℤ) (acc : List ℕ) : ℤ :=
  match acc.getLast? with
  | none => junk
  | some p => (p : ℤ)

/-- Loop of `find_peaks` (lines 770–791) with explicit fuel: a column `i`
with `sigma[i] < tol` is accepted iff `i - peaks[j-1] > ind_thresh`,
where `peaks[j-1]` is `prevRead junk acc`. -/
def findPeaksLoop (sigma : List ℚ) (tol : ℚ) (thr junk : ℤ) : ℕ → ℕ → List ℕ → List ℕ
  | 0, _, acc => acc
  | fuel + 1, i, acc =>
    if i < sigma.length then
      if sigma.getD i 0 < tol then
        if HARDTRESHOLD_PEAKS = 1 then
          if (i : ℤ) - prevRead junk acc > thr then
            findPeaksLoop sigma tol thr junk fuel (i + 1) (acc ++ [i])
          else findPeaksLoop sigma tol thr junk fuel (i + 1) acc
        else findPeaksLoop sigma tol thr junk fuel (i + 1) acc
      else findPeaksLoop sigma tol thr junk fuel (i + 1) acc
    else acc

/-- `find_peaks(sigma, n, peaks, &n_peaks)`: the list of accepted peak
indices, in order of acceptance. -/
def find_peaks (sigma : List ℚ) (tol : ℚ) (thr junk : ℤ) : List ℕ :=
  findPeaksLoop sigma tol thr junk sigma.length 0 []

/-- The randomness-dependent stages of `ampd` (lines 337–343):
`calc_lms` → `row_sum_lms` → `argmin_minind` → `col_stddev_lms` →
`find_peaks`, applied to the (already detrended) window samples.  The
preceding `linear_fit`/`linear_detrend` stages consume no random draws,
so two runs of the full pipeline on identical samples enter this
sub-pipeline with identical data. -/
def ampdCore (data : List ℚ) (u : ℕ → ℕ → ℚ) (α rf tol : ℚ) (thr junkPrev : ℤ)
    (junkData junkG : ℚ) : List ℕ :=
  let lms := calc_lms data junkData α rf u
  let gamma := row_sum_lms lms
  let lambda := argmin_minind gamma junkG
  let sigma := col_stddev_lms lms lambda
  find_peaks sigma tol thr junkPrev

/-- The source's `#define TESTING 1`. -/
def TESTING : ℕ := 1

/-- `n_ovlap = (int)((double)data_buf * overlap)` (line 202). -/
def n_ovlapModel (data_buf : ℕ) (overlap : ℚ) : ℤ := truncQ ((data_buf : ℚ) * overlap)

/-- The batch stride `data_buf - n_ovlap` used at lines 203 and 239. -/
def strideModel (data_buf : ℕ) (overlap : ℚ) : ℤ :=
  (data_buf : ℤ) - n_ovlapModel data_buf overlap

/-- `cycles = (int)(ceil(datalen / (double)(data_buf - n_ovlap)))`
(line 203).  (For stride `≤ 0` the C double division is degenerate; the
claims below only instantiate positive strides.) -/
def cyclesModel (datalen data_buf : ℕ) (overlap : ℚ) : ℤ :=
  ⌈(datalen : ℚ) / ((strideModel data_buf overlap : ℤ) : ℚ)⌉

/-- The per-window contribution `(int)(n_peaks * (1.0-overlap))` added to
`sum_n_peaks` at line 267. -/
def windowContribution (n_peaks : ℤ) (overlap : ℚ) : ℤ :=
  truncQ ((n_peaks : ℚ) * (1 - overlap))

/-- The batch loop of `main` (lines 220–294), with explicit fuel.  Per
iteration `i`: stop if `i ≥ cycles` (loop guard); stop if `TESTING == 1`
and `i > 0`; compute `ind = i*stride`; stop if `i == cycles-1`
(`break; //TODO del test`); otherwise invoke the engine on the window of
length `data_buf` at origin `ind` — recorded as the pair `(i, ind)` —
and add `windowContribution` of its peak count (`pk i`) to the sum.
Returns the list of engine invocations and the final `sum_n_peaks`. -/
def driverLoop (cycles stride : ℤ) (overlap : ℚ) (pk : ℕ → ℤ) :
    ℕ → ℕ → List (ℕ × ℤ) × ℤ
  | 0, _ => ([], 0)
  | fuel + 1, i =>
    if (i : ℤ) < cycles then
      if TESTING = 1 ∧ 0 < i then ([], 0)
      else if (i : ℤ) = cycles - 1 then ([], 0)
      else
        let rest := driverLoop cycles stride overlap pk fuel (i + 1)
        ((i, (i : ℤ) * stride) :: rest.1, windowContribution (pk i) overlap + rest.2)
    else ([], 0)

/-- The batch driver of `main`: computes `n_ovlap`, `stride`, `cycles`
and runs the batch loop from `i = 0` with `sum_n_peaks = 0`.  `pk w` is
the peak count the AMPD engine returns for window `w`. -/
def batchDriver (datalen data_buf : ℕ) (overlap : ℚ) (pk : ℕ → ℤ) :
    List (ℕ × ℤ) × ℤ :=
  driverLoop (cyclesModel datalen data_buf overlap) (strideModel data_buf overlap)
    overlap pk (cyclesModel datalen data_buf overlap).toNat 0

/-- The guard pair of `calc_lms` for row `k`, column `i` of a length-`n`
window: the cell is compared (not defaulted to noise) iff neither
`i < k` nor `i > n - k + 1` holds. -/
def lmsGuardPass (n k i : ℕ) : Prop :=
  ¬((i : ℤ) < (k : ℤ)) ∧ ¬((i : ℤ) > (n : ℤ) - (k : ℤ) + 1)

/-- The three signed sample positions `i-1`, `i-k-1`, `i+k-1` read by the
local-maximum comparison of `calc_lms`. -/
def lmsPositions (k i : ℕ) : List ℤ :=
  [(i : ℤ) - 1, (i : ℤ) - (k : ℤ) - 1, (i : ℤ) + (k : ℤ) - 1]

/-- Whether all three compared positions lie within the window bounds
`[0, n)`. -/
def lmsInBounds (n k i : ℕ) : Bool :=
  (lmsPositions k i).all fun p => 0 ≤ p ∧ p < (n : ℤ)

noncomputable section

/-- The normalized time axis `x = (double)i * ts / n` of `linear_fit`. -/
def xOf (n : ℕ) (ts : ℝ) (i : ℕ) : ℝ := (i : ℝ) * ts / (n : ℝ)

/-- `sumx += x` of `linear_fit`. -/
def fitSumx (data : List ℝ) (ts : ℝ) : ℝ :=
  ((List.range data.length).map fun i => xOf data.length ts i).sum

/-- `sumx2 += sqrt(x)` of `linear_fit` — the source accumulates `sqrt(x)`
where textbook least squares would accumulate `x*x` (its own comment:
`//TODO fix this or delete, not sqrt...`). -/
def fitSumx2 (data : List ℝ) (ts : ℝ) : ℝ :=
  ((List.range data.length).map fun i => Real.sqrt (xOf data.length ts i)).sum

/-- `sumxy += x * data[i]` of `linear_fit`. -/
def fitSumxy (data : List ℝ) (ts : ℝ) : ℝ :=
  ((List.range data.length).map fun i => xOf data.length ts i * data.getD i 0).sum

/-- `sumy += data[i]` of `linear_fit`. -/
def fitSumy (data : List ℝ) : ℝ := data.sum

/-- `sumy2 += sqrt(data[i])` of `linear_fit` (same `sqrt` transcription). -/
def fitSumy2 (data : List ℝ) : ℝ := (data.map Real.sqrt).sum

/-- `denom = (n * sumx2 - sqrt(sumx))` of `linear_fit`. -/
def fitDenom (data : List ℝ) (ts : ℝ) : ℝ :=
  (data.length : ℝ) * fitSumx2 data ts - Real.sqrt (fitSumx data ts)

/-- `*a = (n * sumxy - sumx * sumy) / denom`. -/
def fitA (data : List ℝ) (ts : ℝ) : ℝ :=
  ((data.length : ℝ) * fitSumxy data ts - fitSumx data ts * fitSumy data) / fitDenom data ts

/-- `*b = (sumy * sumx2 - sumx * sumxy) / denom`. -/
def fitB (data : List ℝ) (ts : ℝ) : ℝ :=
  (fitSumy data * fitSumx2 data ts - fitSumx data ts * fitSumxy data ts) / fitDenom data ts

/-- The square of the denominator of the correlation coefficient `r`:
`(sumx2 - sqrt(sumx)/n) * (sumy2 - sqrt(sumy)/n)`. -/
def rDenomSq (data : List ℝ) (ts : ℝ) : ℝ :=
  (fitSumx2 data ts - Real.sqrt (fitSumx data ts) / (data.length : ℝ)) *
    (fitSumy2 data - Real.sqrt (fitSumy data) / (data.length : ℝ))

/-- The real value of `r = (sumxy - sumx*sumy/n) / sqrt(rDenomSq)` when the
C computation produces a real number. -/
def rVal (data : List ℝ) (ts : ℝ) : ℝ :=
  (fitSumxy data ts - fitSumx data ts * fitSumy data / (data.length : ℝ)) /
    Real.sqrt (rDenomSq data ts)

/-- When the C computation of `r` produces an IEEE NaN: some `sqrt` in the
accumulation receives a negative argument (`sqrt(x)` with a negative time
axis, `sqrt(data[i])` of a negative sample, `sqrt(sumx)`/`sqrt(sumy)` of a
negative sum, the final `sqrt` of a negative product), or the division is
the indeterminate `0/0`.  (A nonzero numerator over `sqrt(...) = 0` yields
`±inf`, which is not NaN, so it passes the `r != r` test exactly like a
real value; `r` is used only in that test, so its value then is
irrelevant.) -/
def rIsNaN (data : List ℝ) (ts : ℝ) : Prop :=
  (∃ i < data.length, xOf data.length ts i < 0) ∨ (∃ y ∈ data, y < 0) ∨
  fitSumx data ts < 0 ∨ fitSumy data < 0 ∨ rDenomSq data ts < 0 ∨
  (Real.sqrt (rDenomSq data ts) = 0 ∧
    fitSumxy data ts - fitSumx data ts * fitSumy data / (data.length : ℝ) = 0)

open Classical in
/-- `linear_fit(data, n, ts, &a, &b, &r)` (lines 629–660) as
`(return code, a, b, r)`: on a zero denominator it sets `a = b = r = 0`
and returns `-1` (which the caller `ampd` ignores); otherwise it returns
`0` with the computed coefficients, `r` being `none` exactly when the C
computation of `r` produces NaN. -/
def linear_fit (data : List ℝ) (ts : ℝ) : ℤ × ℝ × ℝ × Option ℝ :=
  if fitDenom data ts = 0 then (-1, 0, 0, some 0)
  else (0, fitA data ts, fitB data ts,
    if rIsNaN data ts then none else some (rVal data ts))

/-- The fit stage of `ampd` (lines 329–336): `linear_fit` is called, its
return code is discarded, and the window is aborted — the only
early-return in `ampd` — iff `r != r`, i.e. iff `r` is NaN (`none`);
otherwise processing continues with the fit coefficients `(a, b)`. -/
def ampdFitStage (data : List ℝ) (ts : ℝ) : Option (ℝ × ℝ) :=
  match linear_fit data ts with
  | (_, _, _, none) => none
  | (_, a, b, some _) => some (a, b)

/-- Sum of squared residuals of the line `y = a·x + b` against the window
samples over the normalized time axis — the quantity a least-squares fit
minimizes. -/
def ssr (data : List ℝ) (ts a b : ℝ) : ℝ :=
  ((List.range data.length).map fun i =>
    (data.getD i 0 - (a * xOf data.length ts i + b)) ^ 2).sum

end

/-! ## Theorems -/

/-- C1 — the claim says the batch driver invokes the AMPD engine once for
every window index `w` in `0..numWindows-1`.  With `datalen = 300`,
`windowLen = 200`, `overlapRatio = 0.5` (all doubles exact), the code's
own `numWindows` is `cycles = 3`, yet the engine is invoked only for
window `0` (at origin `0`): `#define TESTING 1` breaks the loop after the
first iteration, and the final window is always skipped by
`break; //TODO del test`. -/
theorem driver_single_window_invocation :
    cyclesModel 300 200 (1/2) = 3 ∧
    (batchDriver 300 200 (1/2) (fun _ => 0)).1 = [(0, 0)] := by
  with_unfolding_all decide

/-- C2 counterexample — at `n_peaks = 5`, `overlapRatio = 0.5` (both
exact in double arithmetic) the driver run adds `(int)(5 * 0.5) = 2` to
the aggregate, while `round(5 · (1 - 0.5)) = 3`: the code truncates, it
does not round. -/
theorem driver_truncates_not_rounds :
    (batchDriver 300 200 (1/2) (fun _ => 5)).2 = 2 ∧
    round ((5 : ℚ) * (1 - 1/2)) = 3 := by with_unfolding_all decide

/-- Sum shape of the batch loop: the final accumulator equals the sum of
the per-window truncated contributions over the processed windows. -/
theorem driverLoop_sum_eq (cycles stride : ℤ) (overlap : ℚ) (pk : ℕ → ℤ) :
    ∀ (fuel i : ℕ),
      (driverLoop cycles stride overlap pk fuel i).2 =
      ((driverLoop cycles stride overlap pk fuel i).1.map
        (fun w => windowContribution (pk w.1) overlap)).sum := by
  intro fuel
  induction fuel with
  | zero => intro i; simp [driverLoop]
  | succ fuel ih =>
    intro i
    simp only [driverLoop]
    split_ifs <;> simp [ih]

/-- C2 amended — for every series length, window length, overlap ratio
and engine oracle `pk`, the driver's aggregate equals the sum over the
processed windows of `(int)(peakCount_w * (1 - overlapRatio))`, the C
`(int)` cast truncating toward zero (not `round`). -/
theorem driver_sum_is_truncated_contributions (datalen data_buf : ℕ)
    (overlap : ℚ) (pk : ℕ → ℤ) :
    (batchDriver datalen data_buf overlap pk).2 =
    ((batchDriver datalen data_buf overlap pk).1.map
      (fun w => windowContribution (pk w.1) overlap)).sum :=
  driverLoop_sum_eq _ _ _ _ _ _

/-- C3 counterexample — identical (detrended) samples, two draw sequences
with all values in `[0,1]`, yet different PeakSets: with window
`[0,5,0,4,0,3,0,2]`, `alpha = 1`, `rand_factor = 1`, `tolerance = 1/2`,
`ind_thresh = 1`, the first draw pattern yields peaks `[3,5,7]` and the
second (differing only in the draw for cell `(k,i) = (0,5)`) yields
`[3,7]`: the draws reach `gamma`, `lambda` and `sigma`, so they do
influence the returned PeakSet. -/
theorem peaks_depend_on_random_draws :
    ampdCore [0, 5, 0, 4, 0, 3, 0, 2] (fun k _ => if k ≤ 1 then 1 else 0)
      1 1 (1/2) 1 0 0 0 ≠
    ampdCore [0, 5, 0, 4, 0, 3, 0, 2]
      (fun k i => if k = 0 ∧ i = 5 then 0 else if k ≤ 1 then 1 else 0)
      1 1 (1/2) 1 0 0 0 := by with_unfolding_all decide

/-- C3 amended — the `0`-vs-noise decision is draw-independent: for any
two draw sources (non-negative draws, `alpha > 0`, `rand_factor ≥ 0`), a
scalogram cell is flagged `0` in one run iff it is flagged `0` in the
other; the flagging is purely a function of the input samples. -/
theorem lms_zero_flag_draw_independent (data : List ℚ) (junk α rf : ℚ)
    (u u' : ℕ → ℕ → ℚ) (k i : ℕ) (hα : 0 < α) (hrf : 0 ≤ rf)
    (hu : 0 ≤ u k i) (hu' : 0 ≤ u' k i) :
    (lmsCell data junk α rf u k i = 0 ↔ lmsCell data junk α rf u' k i = 0) := by
  have h : 0 < α + rf * u k i := by have := mul_nonneg hrf hu; linarith
  have h' : 0 < α + rf * u' k i := by have := mul_nonneg hrf hu'; linarith
  unfold lmsCell
  split_ifs <;> constructor <;> intro hh <;> first | rfl | linarith

/-- Witness for `lms_zero_flag_draw_independent` at a concrete input. -/
theorem lms_zero_flag_draw_independent_witness :
    (0 : ℚ) < 1 ∧ (0 : ℚ) ≤ 1 ∧
    (0 : ℚ) ≤ (fun (_ _ : ℕ) => (0 : ℚ)) 0 0 ∧
    (0 : ℚ) ≤ (fun (_ _ : ℕ) => (1 : ℚ)) 0 0 ∧
    (lmsCell [0, 1, 0, 1] 0 1 1 (fun _ _ => 0) 0 0 = 0 ↔
      lmsCell [0, 1, 0, 1] 0 1 1 (fun _ _ => 1) 0 0 = 0) :=
  ⟨by norm_num, by norm_num, by norm_num, by norm_num,
    lms_zero_flag_draw_independent [0, 1, 0, 1] 0 1 1 _ _ 0 0
      (by norm_num) (by norm_num) (by norm_num) (by norm_num)⟩

/-- C4 — the claim says the very first candidate is always accepted and
the prior-peak comparison happens only when a prior accepted peak exists.
The code always evaluates `i - peaks[j-1] > ind_thresh`, reading the word
before the `peaks` array when `j = 0`: with `sigma = [0]`,
`tolerance = 1`, `ind_thresh = 1`, the sole (first) candidate at `i = 0`
is rejected when that out-of-bounds word is `0` and accepted when it is
`-5` — the outcome depends on indeterminate memory. -/
theorem first_candidate_compared_against_oob_word :
    find_peaks [0] 1 1 0 = [] ∧ find_peaks [0] 1 1 (-5) = [0] := by
  with_unfolding_all decide

/-- C7 counterexample — row `k = 0`, column `i = 0` of an `n = 8` window
passes both edge guards of `calc_lms`, yet the compared sample positions
are not all inside `[0, n)` (positions `i-1` and `i-k-1` are `-1`). -/
theorem lms_guard_passes_oob_position :
    lmsGuardPass 8 0 0 ∧ lmsInBounds 8 0 0 = false := by
  unfold lmsGuardPass
  with_unfolding_all decide

/-- C7 amended — the edge guards only confine the three compared
positions to `[-1, n]`; they are all inside the window bounds `[0, n)`
exactly when `k+1 ≤ i` and `i+k ≤ n`, so the guard-passing boundary
columns `i = k` (position `-1`) and `i = n-k+1` (position `n`) read out
of bounds. -/
theorem lms_guard_bounds (n k i : ℕ) (h : lmsGuardPass n k i) :
    (∀ p ∈ lmsPositions k i, -1 ≤ p ∧ p ≤ (n : ℤ)) ∧
    (lmsInBounds n k i = true ↔ (k + 1 ≤ i ∧ (i : ℤ) + (k : ℤ) ≤ (n : ℤ))) := by
  obtain ⟨h1, h2⟩ := h
  constructor
  · intro p hp
    simp only [lmsPositions, List.mem_cons, List.not_mem_nil, or_false] at hp
    rcases hp with rfl | rfl | rfl <;> omega
  · simp only [lmsInBounds, lmsPositions, List.all_cons, List.all_nil,
      Bool.and_true, Bool.and_eq_true, decide_eq_true_eq]
    omega

/-- A list's `getLast?` value is a member of the list. -/
theorem mem_of_getLast?_eq {α : Type} {l : List α} {a : α}
    (h : l.getLast? = some a) : a ∈ l := by
  have hmem : a ∈ l.getLast? := by simp [h]
  obtain ⟨hne, h2⟩ := List.mem_getLast?_eq_getLast hmem
  rw [h2]
  exact List.getLast_mem hne

/-- Invariant of the `find_peaks` loop: starting from an accumulator that
is strictly increasing, `ind_thresh`-spaced, and whose members are
below-tolerance columns left of `i`, the loop's result is strictly
increasing, `ind_thresh`-spaced, and all its members are below-tolerance
columns. -/
theorem findPeaksLoop_invariants (sigma : List ℚ) (tol : ℚ) (thr junk : ℤ) :
    ∀ (fuel i : ℕ) (acc : List ℕ),
      List.Chain' (· < ·) acc →
      List.Chain' (fun (a b : ℕ) => thr < (b : ℤ) - (a : ℤ)) acc →
      (∀ p ∈ acc, p < i ∧ p < sigma.length ∧ sigma.getD p 0 < tol) →
      List.Chain' (· < ·) (findPeaksLoop sigma tol thr junk fuel i acc) ∧
      List.Chain' (fun (a b : ℕ) => thr < (b : ℤ) - (a : ℤ))
        (findPeaksLoop sigma tol thr junk fuel i acc) ∧
      ∀ p ∈ findPeaksLoop sigma tol thr junk fuel i acc,
        p < sigma.length ∧ sigma.getD p 0 < tol := by
  intro fuel
  induction fuel with
  | zero =>
    intro i acc h1 h2 h3
    exact ⟨h1, h2, fun p hp => (h3 p hp).2⟩
  | succ fuel ih =>
    intro i acc h1 h2 h3
    simp only [findPeaksLoop]
    split_ifs with hlen hsig hhard hacc
    · -- accept: recurse on acc ++ [i]
      apply ih (i + 1) (acc ++ [i])
      · rw [List.chain'_append]
        refine ⟨h1, List.chain'_singleton i, ?_⟩
        intro x hx y hy
        simp only [List.head?_cons, Option.mem_def, Option.some.injEq] at hy
        subst hy
        exact (h3 x (mem_of_getLast?_eq hx)).1
      · rw [List.chain'_append]
        refine ⟨h2, List.chain'_singleton i, ?_⟩
        intro x hx y hy
        simp only [List.head?_cons, Option.mem_def, Option.some.injEq] at hy
        subst hy
        have hx' : acc.getLast? = some x := hx
        have hprev : prevRead junk acc = (x : ℤ) := by
          simp [prevRead, hx']
        rw [hprev] at hacc
        omega
      · intro p hp
        rcases List.mem_append.mp hp with hpa | hpi
        · obtain ⟨hlt, hrest⟩ := h3 p hpa
          exact ⟨by omega, hrest⟩
        · rcases List.mem_singleton.mp hpi with rfl
          exact ⟨by omega, hlen, hsig⟩
    · exact ih (i + 1) acc h1 h2 fun p hp =>
        ⟨by have := (h3 p hp).1; omega, (h3 p hp).2⟩
    · exact absurd rfl hhard
    · exact ih (i + 1) acc h1 h2 fun p hp =>
        ⟨by have := (h3 p hp).1; omega, (h3 p hp).2⟩
    · exact ⟨h1, h2, fun p hp => (h3 p hp).2⟩

/-- C5 — for every sigma vector (and every tolerance, threshold and value
of the word read out of bounds before the first acceptance), the returned
PeakSet is strictly increasing, every accepted index `p` satisfies
`sigma[p] < tolerance`, and every pair of consecutive accepted peaks is
more than `ind_thresh` indices apart. -/
theorem find_peaks_invariants (sigma : List ℚ) (tol : ℚ) (thr junk : ℤ) :
    List.Chain' (· < ·) (find_peaks sigma tol thr junk) ∧
    List.Chain' (fun (a b : ℕ) => thr < (b : ℤ) - (a : ℤ)) (find_peaks sigma tol thr junk) ∧
    ∀ p ∈ find_peaks sigma tol thr junk, p < sigma.length ∧ sigma.getD p 0 < tol :=
  findPeaksLoop_invariants sigma tol thr junk sigma.length 0 []
    List.chain'_nil List.chain'_nil (by simp)

/-- Invariant of the `argmin_minind` loop: if `m` is the value at `out`,
a lower bound of the prefix already scanned, and strictly below every
entry left of `out`, then the loop returns the first index of the global
minimum. -/
theorem argminLoop_spec (data : List ℚ) (junk : ℚ) :
    ∀ (fuel i out : ℕ) (m : ℚ),
      data.length ≤ i + fuel → out < data.length → m = data.getD out junk →
      (∀ j, j < i → j < data.length → m ≤ data.getD j junk) →
      (∀ j, j < out → m < data.getD j junk) →
      argminLoop data junk fuel i out m < data.length ∧
      (∀ j, j < data.length →
        data.getD (argminLoop data junk fuel i out m) junk ≤ data.getD j junk) ∧
      (∀ j, j < argminLoop data junk fuel i out m →
        data.getD (argminLoop data junk fuel i out m) junk < data.getD j junk) := by
  intro fuel
  induction fuel with
  | zero =>
    intro i out m hfuel hout hm h1 h2
    simp only [argminLoop]
    subst hm
    exact ⟨hout, fun j hj => h1 j (by omega) hj, h2⟩
  | succ fuel ih =>
    intro i out m hfuel hout hm h1 h2
    simp only [argminLoop]
    split_ifs with hi hlt
    · apply ih (i + 1) i (data.getD i junk) (by omega) hi rfl
      · intro j hj hjlen
        rcases Nat.lt_succ_iff_lt_or_eq.mp hj with hj' | rfl
        · exact le_of_lt (lt_of_lt_of_le hlt (h1 j hj' hjlen))
        · exact le_refl _
      · intro j hj
        exact lt_of_lt_of_le hlt (h1 j hj (by omega))
    · apply ih (i + 1) out m (by omega) hout hm
      · intro j hj hjlen
        rcases Nat.lt_succ_iff_lt_or_eq.mp hj with hj' | rfl
        · exact h1 j hj' hjlen
        · exact not_lt.mp hlt
      · exact h2
    · subst hm
      exact ⟨hout, fun j hj => h1 j (by omega) hj, h2⟩

/-- C6 — for every non-empty gamma vector, `argmin_minind` returns an
index `lambda` with `0 ≤ lambda < L` that attains the global minimum,
and every strictly smaller index holds a strictly larger value (the first
occurrence wins ties). -/
theorem argmin_first_min (data : List ℚ) (junk : ℚ) (h : 0 < data.length) :
    argmin_minind data junk < data.length ∧
    (∀ j, j < data.length →
      data.getD (argmin_minind data junk) junk ≤ data.getD j junk) ∧
    (∀ j, j < argmin_minind data junk →
      data.getD (argmin_minind data junk) junk < data.getD j junk) := by
  unfold argmin_minind
  exact argminLoop_spec data junk data.length 0 0 (data.getD 0 junk) (by omega) h rfl
    (by intro j hj _; exact absurd hj (Nat.not_lt_zero j))
    (by intro j hj; exact absurd hj (Nat.not_lt_zero j))

/-- Witness for `argmin_first_min` at the concrete vector `[3,1,1,2]`
(whose first minimal index is `1`). -/
theorem argmin_first_min_witness :
    0 < ([3, 1, 1, 2] : List ℚ).length ∧
    (argmin_minind [3, 1, 1, 2] 0 < ([3, 1, 1, 2] : List ℚ).length ∧
     (∀ j, j < ([3, 1, 1, 2] : List ℚ).length →
       ([3, 1, 1, 2] : List ℚ).getD (argmin_minind [3, 1, 1, 2] 0) 0 ≤
         ([3, 1, 1, 2] : List ℚ).getD j 0) ∧
     (∀ j, j < argmin_minind [3, 1, 1, 2] 0 →
       ([3, 1, 1, 2] : List ℚ).getD (argmin_minind [3, 1, 1, 2] 0) 0 <
         ([3, 1, 1, 2] : List ℚ).getD j 0)) :=
  ⟨by decide, argmin_first_min [3, 1, 1, 2] 0 (by decide)⟩

/-- Witness for `lms_guard_bounds` at a concrete input. -/
theorem lms_guard_bounds_witness :
    lmsGuardPass 8 1 2 ∧
    ((∀ p ∈ lmsPositions 1 2, -1 ≤ p ∧ p ≤ ((8 : ℕ) : ℤ)) ∧
     (lmsInBounds 8 1 2 = true ↔
       (1 + 1 ≤ 2 ∧ ((2 : ℕ) : ℤ) + ((1 : ℕ) : ℤ) ≤ ((8 : ℕ) : ℤ)))) :=
  ⟨by unfold lmsGuardPass; decide, lms_guard_bounds 8 1 2 (by unfold lmsGuardPass; decide)⟩

/-- C10 — every cell of the first stored scalogram row (`k = 0`) holds
its noise value `alpha + rand_factor·u`, never `0.0`: at `k = 0` the
strict-local-maximum test compares `data[i-1]` with itself on both sides
and cannot succeed, and the noise value is positive when `alpha > 0`,
`rand_factor ≥ 0` and the draw is non-negative. -/
theorem lms_first_row_is_noise (data : List ℚ) (junk α rf : ℚ) (u : ℕ → ℕ → ℚ)
    (i : ℕ) (hn : 4 ≤ data.length) (hi : i < data.length) (hα : 0 < α)
    (hrf : 0 ≤ rf) (hu : 0 ≤ u 0 i) :
    mtxAt (calc_lms data junk α rf u) 0 i = α + rf * u 0 i ∧
    mtxAt (calc_lms data junk α rf u) 0 i ≠ 0 := by
  have hl : 0 < data.length / 2 - 1 := by omega
  have hcell : mtxAt (calc_lms data junk α rf u) 0 i = lmsCell data junk α rf u 0 i := by
    have hrow : (calc_lms data junk α rf u).entries.getD 0 [] =
        (List.range data.length).map fun j => lmsCell data junk α rf u 0 j := by
      unfold calc_lms
      dsimp only
      rw [List.getD_eq_getElem _ _ (by simpa using hl), List.getElem_map,
        List.getElem_range]
    unfold mtxAt
    rw [hrow, List.getD_eq_getElem _ _ (by simpa using hi), List.getElem_map,
      List.getElem_range]
  have hval : lmsCell data junk α rf u 0 i = α + rf * u 0 i := by
    unfold lmsCell
    rw [if_neg (by omega), if_neg (by push_cast; omega), if_neg ?hcmp]
    case hcmp =>
      simp only [Nat.cast_zero, sub_zero, add_zero]
      rintro ⟨h1, -⟩
      exact absurd h1 (lt_irrefl _)
  have hpos : 0 < α + rf * u 0 i := by
    have := mul_nonneg hrf hu
    linarith
  exact ⟨hcell.trans hval, by rw [hcell, hval]; exact ne_of_gt hpos⟩

/-- Witness for `lms_first_row_is_noise` at a concrete input. -/
theorem lms_first_row_is_noise_witness :
    4 ≤ ([5, 1, 2, 3] : List ℚ).length ∧ 0 < ([5, 1, 2, 3] : List ℚ).length ∧
    (0 : ℚ) < 1 ∧ (0 : ℚ) ≤ 1 ∧ (0 : ℚ) ≤ (fun (_ _ : ℕ) => (0 : ℚ)) 0 0 ∧
    (mtxAt (calc_lms [5, 1, 2, 3] 0 1 1 (fun _ _ => 0)) 0 0 =
        1 + 1 * (fun (_ _ : ℕ) => (0 : ℚ)) 0 0 ∧
      mtxAt (calc_lms [5, 1, 2, 3] 0 1 1 (fun _ _ => 0)) 0 0 ≠ 0) :=
  ⟨by decide, by decide, by norm_num, by norm_num, by norm_num,
    lms_first_row_is_noise [5, 1, 2, 3] 0 1 1 _ 0 (by decide) (by decide)
      (by norm_num) (by norm_num) (by norm_num)⟩

/-- C8 amended — the fit stage of `ampd` aborts the window iff the
denominator is nonzero and the computed `r` is NaN; in particular a zero
denominator never aborts (on that path `linear_fit` sets `r = 0` and
returns `-1`, which `ampd` ignores, so `r != r` is false and processing
continues). -/
theorem ampd_aborts_iff_r_nan (data : List ℝ) (ts : ℝ) :
    ampdFitStage data ts = none ↔ fitDenom data ts ≠ 0 ∧ rIsNaN data ts := by
  unfold ampdFitStage linear_fit
  by_cases hd : fitDenom data ts = 0
  · simp [hd]
  · by_cases hr : rIsNaN data ts
    · simp [hd, hr]
    · simp [hd, hr]

/-- C8 counterexample — the single-sample window `[5]` (any sample; the
loop contributes `x = 0` only) has fit denominator `1*sqrt(0) - sqrt(0)
= 0`, yet the fit stage does not abort: it continues with the zeroed
coefficients `(0, 0)` instead of returning the window-level error. -/
theorem denom_zero_window_continues :
    fitDenom [(5 : ℝ)] 1 = 0 ∧ ampdFitStage [(5 : ℝ)] 1 = some (0, 0) := by
  have hd : fitDenom [(5 : ℝ)] 1 = 0 := by
    simp [fitDenom, fitSumx2, fitSumx, xOf, List.range_succ]
  refine ⟨hd, ?_⟩
  unfold ampdFitStage linear_fit
  rw [if_pos hd]

/-- The square root of four. -/
theorem sqrtFour : Real.sqrt 4 = 2 := by
  rw [show (4 : ℝ) = 2 ^ 2 by norm_num, Real.sqrt_sq (by norm_num : (0 : ℝ) ≤ 2)]

/-- C9 — on the window `[0, 1]` with `ts = 8` (normalized time axis
`{0, 4}`, denominator `= 2 ≠ 0`) the code returns `(a, b) = (2, -7)`, whose sum
of squared residuals is `49`, strictly worse than the line `(1/4, 0)`
(which fits the two points exactly): the returned coefficients are not
the least-squares minimizer, because the code accumulates `sqrt(x)` and
`sqrt(y)` where least squares needs `x²` (see its comment
`//TODO fix this or delete, not sqrt...`). -/
theorem linear_fit_not_least_squares :
    (linear_fit [(0 : ℝ), 1] 8).2.1 = 2 ∧ (linear_fit [(0 : ℝ), 1] 8).2.2.1 = -7 ∧
    ssr [(0 : ℝ), 1] 8 (1/4) 0 < ssr [(0 : ℝ), 1] 8 ((linear_fit [(0 : ℝ), 1] 8).2.1)
      ((linear_fit [(0 : ℝ), 1] 8).2.2.1) := by
  have hx0 : xOf 2 8 0 = 0 := by simp [xOf]
  have hx1 : xOf 2 8 1 = 4 := by norm_num [xOf]
  have hsx : fitSumx [(0 : ℝ), 1] 8 = 4 := by
    norm_num [fitSumx, List.range_succ, hx0, hx1]
  have hsx2 : fitSumx2 [(0 : ℝ), 1] 8 = 2 := by
    norm_num [fitSumx2, List.range_succ, hx0, hx1, Real.sqrt_zero, sqrtFour]
  have hsxy : fitSumxy [(0 : ℝ), 1] 8 = 4 := by
    norm_num [fitSumxy, List.range_succ, hx0, hx1]
  have hsy : fitSumy [(0 : ℝ), 1] = 1 := by
    norm_num [fitSumy]
  have hd : fitDenom [(0 : ℝ), 1] 8 = 2 := by
    norm_num [fitDenom, hsx2, hsx, sqrtFour]
  have ha : fitA [(0 : ℝ), 1] 8 = 2 := by
    norm_num [fitA, hsxy, hsx, hsy, hd]
  have hb : fitB [(0 : ℝ), 1] 8 = -7 := by
    norm_num [fitB, hsxy, hsx, hsy, hsx2, hd]
  have hab : (linear_fit [(0 : ℝ), 1] 8).2.1 = 2 ∧
      (linear_fit [(0 : ℝ), 1] 8).2.2.1 = -7 := by
    unfold linear_fit
    rw [if_neg (by rw [hd]; norm_num)]
    exact ⟨ha, hb⟩
  refine ⟨hab.1, hab.2, ?_⟩
  rw [hab.1, hab.2]
  have hssr1 : ssr [(0 : ℝ), 1] 8 (1/4) 0 = 0 := by
    norm_num [ssr, List.range_succ, hx0, hx1]
  have hssr2 : ssr [(0 : ℝ), 1] 8 2 (-7) = 49 := by
    norm_num [ssr, List.range_succ, hx0, hx1]
  rw [hssr1, hssr2]
  norm_num

end Ampd
